import Mathlib

/-!
Verification of the spark compiler middle/back-end core (type interner,
primitive anchoring, enum layout sizes, forward declaration pass, and the
statement/expression lowerer) against its natural-language specification.
The Rust sources embedded here are src/codegen/ir.rs, src/ir/mod.rs,
src/codegen/llvm/mod.rs and src/codegen/llvm/astgen.rs.
-/

namespace Spark

/-! ## Type model (src/codegen/ir.rs) -/

/-- Width of an integer type (crate::ast::IntegerWidth; the ast module is not
part of the sources, but size_of_type computes `*width as u8 / 8` so the
discriminants are the bit widths 8, 16, 32, 64, and the derived order on the
enum follows those discriminants). -/
inductive IntegerWidth where
  | eight
  | sixteen
  | thirtyTwo
  | sixtyFour
deriving DecidableEq, Repr

/-- The numeric discriminant of an IntegerWidth (`width as u8` in the source). -/
def IntegerWidth.toNat : IntegerWidth → Nat
  | .eight => 8
  | .sixteen => 16
  | .thirtyTwo => 32
  | .sixtyFour => 64

/-- Index into the type interner (codegen/ir.rs: `pub type TypeId = Index<Type>`;
handles are plain integers per spec section 4.1). -/
abbrev TypeId := Nat

/-- TypeData from codegen/ir.rs lines 172-202.  Symbols are modelled as strings.
Note: src/codegen/llvm/mod.rs pattern-matches an `Alias` with a name component
and an `Invalid` without payload; the declaration in codegen/ir.rs (the cited
authority for the type model) has `Alias(TypeId)` and `Invalid(usize)`, which is
what is embedded here.  The name tags on Struct and Enum take no part in any
size or lowering computation. -/
inductive TypeData where
  | integer (signed : Bool) (width : IntegerWidth)
  | float (doublewide : Bool)
  | bool
  | unit
  | pointer (pointee : TypeId)
  | array (element : TypeId) (len : Nat)
  | tuple (parts : List TypeId)
  | struct (name : Option String) (fields : List (TypeId × String))
  | enum (name : Option String) (parts : List TypeId)
  | alias (ty : TypeId)
  | function (returnTy : TypeId) (args : List TypeId)
  | invalid (tag : Nat)
deriving DecidableEq, Repr

/-! ## The interner (crate::arena, not under src/)

Modelled from the spec: section 4.1 describes the Arena and Interner, whose
source file is not part of the repository.  "Arenas are append-only indexed
collections returning a typed handle ... The Interner additionally maintains a
hash index keyed by structural hash of the payload; insert returns the existing
id if a structurally-equal entry is present.  insert_with accepts a builder
receiving the id-to-be."  Entries are modelled as the payload data; the `Type`
wrapper of codegen/ir.rs stores the id next to the data, and deduplication is
keyed on the data (spec section 8: structurally-equal TypeData gets the same
id). -/
structure Interner (α : Type) [DecidableEq α] where
  entries : List α

/-- Index of the first structurally-equal entry in the backing list, if any
(the hash index of the interner, spec section 4.1). -/
def findExisting {α : Type} [DecidableEq α] (d : α) : List α → Option Nat
  | [] => none
  | a :: l => if a = d then some 0 else (findExisting d l).map (fun i => i + 1)

/-- Modelled from the spec: Interner.insert (section 4.1) returns the existing
id when a structurally-equal entry is present, otherwise appends the payload
and returns the fresh id.  new_type (codegen/ir.rs lines 39-46) calls
insert_with building `Type { id, data }`; its observable effect on the table of
type data is this insertion. -/
def Interner.insert {α : Type} [DecidableEq α] (i : Interner α) (d : α) :
    Interner α × Nat :=
  match findExisting d i.entries with
  | some idx => (i, idx)
  | none => (⟨i.entries ++ [d]⟩, i.entries.length)

/-- Empty interner (Interner::new). -/
def Interner.new (α : Type) [DecidableEq α] : Interner α := ⟨[]⟩

/-- SparkCtx.new_type (codegen/ir.rs lines 39-46): intern the given type data. -/
def newType (types : Interner TypeData) (data : TypeData) :
    Interner TypeData × TypeId :=
  types.insert data

/-! ## SparkCtx primitive anchoring (codegen/ir.rs lines 109-150) -/

/-- SparkCtx named TypeId constants (codegen/ir.rs lines 109-122). -/
def SparkCtx.I8 : TypeId := 0
def SparkCtx.I16 : TypeId := 1
def SparkCtx.I32 : TypeId := 2
def SparkCtx.I64 : TypeId := 3
def SparkCtx.U8 : TypeId := 4
def SparkCtx.U16 : TypeId := 5
def SparkCtx.U32 : TypeId := 6
def SparkCtx.U64 : TypeId := 7
def SparkCtx.F32 : TypeId := 8
def SparkCtx.F64 : TypeId := 9
def SparkCtx.BOOL : TypeId := 10
def SparkCtx.UNIT : TypeId := 11

/-- The sequence of type data inserted by SparkCtx::new (codegen/ir.rs lines
124-150), in source order. -/
def SparkCtx.newInsertions : List TypeData :=
  [ .integer true .eight, .integer true .sixteen,
    .integer true .thirtyTwo, .integer true .sixtyFour,
    .integer false .eight, .integer false .sixteen,
    .integer false .thirtyTwo, .integer false .sixtyFour,
    .float false, .float true,
    .bool, .unit ]

/-- SparkCtx::new builds its type interner by inserting newInsertions in order
into a fresh interner. -/
def SparkCtx.newTypes : Interner TypeData :=
  SparkCtx.newInsertions.foldl (fun i d => (i.insert d).1) (Interner.new TypeData)

/-! ## IrContext primitive anchoring (src/ir/mod.rs lines 162-201) -/

/-- IrType from ir/mod.rs lines 42-78 (only the payload shapes needed for the
primitive-anchoring claim; Struct/Sum/Alias/Fun payloads are kept abstract as
they never occur among the primitives). -/
inductive IrType where
  | integer (signed : Bool) (width : IntegerWidth)
  | float (doublewide : Bool)
  | bool
  | unit
  | structIr (fields : List (TypeId × String))
  | sum (variants : List TypeId)
  | aliasIr (name : String) (ty : TypeId)
  | funIr (returnTy : TypeId) (args : List TypeId)
deriving DecidableEq, Repr

/-- IrContext named TypeId constants (ir/mod.rs lines 162-175): note BOOL = 8,
UNIT = 9, F32 = 10, F64 = 11. -/
def IrContext.I8 : TypeId := 0
def IrContext.I16 : TypeId := 1
def IrContext.I32 : TypeId := 2
def IrContext.I64 : TypeId := 3
def IrContext.U8 : TypeId := 4
def IrContext.U16 : TypeId := 5
def IrContext.U32 : TypeId := 6
def IrContext.U64 : TypeId := 7
def IrContext.BOOL : TypeId := 8
def IrContext.UNIT : TypeId := 9
def IrContext.F32 : TypeId := 10
def IrContext.F64 : TypeId := 11

/-- The sequence of type data inserted by IrContext::new (ir/mod.rs lines
178-201), in source order: the eight integers, then Bool, then Unit, then the
two floats. -/
def IrContext.newInsertions : List IrType :=
  [ .integer true .eight, .integer true .sixteen,
    .integer true .thirtyTwo, .integer true .sixtyFour,
    .integer false .eight, .integer false .sixteen,
    .integer false .thirtyTwo, .integer false .sixtyFour,
    .bool, .unit,
    .float false, .float true ]

/-- IrContext::new builds its type interner by inserting newInsertions in order
into a fresh interner. -/
def IrContext.newTypes : Interner IrType :=
  IrContext.newInsertions.foldl (fun i d => (i.insert d).1) (Interner.new IrType)

/-! ## Byte sizes (src/codegen/llvm/mod.rs lines 352-383)

size_of_type recurses through the type table (`self.spark[ty]`); the embedding
carries the table as a list indexed by TypeId and a fuel argument for the
recursion (every concrete table reached in practice is finite and acyclic, so a
table-length fuel suffices).  ptr_size queries the target data layout and is a
parameter here. -/

/-- Look a TypeId up in the type table (SparkCtx indexing; out-of-range ids do
not occur in the source and default to the Invalid placeholder). -/
def lookupType (types : List TypeData) (ty : TypeId) : TypeData :=
  types.getD ty (.invalid 0)

/-- size_of_type (mod.rs lines 352-369).  Note the Enum arm returns
biggest_size(parts) = the maximum variant size with no extra byte for the
discriminant, and the Struct arm is the plain sum of field sizes (packed).
The TypeData declaration in codegen/ir.rs also has a Tuple variant that the
source match does not cover (tuples take no part in codegen, spec section 9);
the embedding gives that unreachable arm size 0, as it does for the
unreachable Invalid arm. -/
def sizeOfType (ptrSize : Nat) (types : List TypeData) :
    Nat → TypeId → Nat
  | 0, _ => 0
  | fuel + 1, ty =>
    match lookupType types ty with
    | .integer _ width => width.toNat / 8
    | .float true => 8
    | .float false => 4
    | .enum _ parts =>
      (parts.map (fun p => sizeOfType ptrSize types fuel p)).foldr Nat.max 0
    | .bool => 1
    | .struct _ fields =>
      (fields.map (fun f => sizeOfType ptrSize types fuel f.1)).foldr
        (fun a b => a + b) 0
    | .unit => 0
    | .pointer _ => ptrSize
    | .array element len => sizeOfType ptrSize types fuel element * len
    | .alias aliased => sizeOfType ptrSize types fuel aliased
    | .function _ _ => ptrSize
    | .tuple _ => 0
    | .invalid _ => 0

/-- biggest_size (mod.rs lines 372-378): the maximum size_of_type among a list
of types, or 0 for the empty list (`.max().unwrap_or(0)`). -/
def biggestSize (ptrSize : Nat) (types : List TypeData) (fuel : Nat)
    (parts : List TypeId) : Nat :=
  (parts.map (fun p => sizeOfType ptrSize types fuel p)).foldr Nat.max 0

/-- The byte footprint of the representation llvm_ty emits for an enum
(mod.rs lines 306-328): a packed struct of an i8 discriminant followed by an
i8 array of length max = biggest variant size when max > 0, and a packed struct
of only the i8 discriminant when max = 0.  As a packed struct its byte size is
1 + max, respectively 1. -/
def enumLoweredByteSize (ptrSize : Nat) (types : List TypeData) (fuel : Nat)
    (parts : List TypeId) : Nat :=
  let max := biggestSize ptrSize types fuel parts
  if max > 0 then 1 + max else 1

/-! ## Forward declaration pass (src/codegen/llvm/mod.rs lines 217-263)

forward_funs walks the module tree: within one module it first processes every
FunDef in definition order, then recurses into every ModDef child in order.
The module tree is embedded as such a tree; the same FunId may appear at
several places (a module reached twice).  The uuid::Uuid::new_v4() suffix for
internal functions is modelled by a fresh-nonce counter in the state; the only
property used of it is that some suffix is appended after the source name and
a dash.  gen_fun_ty can reject zero-sized argument types; that diagnostic path
aborts the whole pass in the source and is not modelled (every signature here
is well lowered). -/

/-- Index into the function arena. -/
abbrev FunId := Nat

/-- The fields of a Function that forward_funs consults: its source name and
whether its flags contain FunFlags::EXTERN. -/
structure FunDecl where
  name : String
  isExtern : Bool
deriving DecidableEq, Repr

/-- Linkage of an emitted prototype (inkwell Linkage::External / Internal). -/
inductive Linkage where
  | external
  | internal
deriving DecidableEq, Repr

/-- One prototype produced by llvm.add_function, recorded together with the
FunId under which llvm_funs stores it. -/
structure Proto where
  funId : FunId
  name : String
  linkage : Linkage
deriving DecidableEq, Repr

/-- State threaded through forward_funs: the codegened_funs set, the llvm_funs
map in insertion order, and the fresh-uuid counter. -/
structure FwdState where
  codegenedFuns : List FunId
  protos : List Proto
  freshUuid : Nat
deriving DecidableEq, Repr

/-- Initial state of the generator (LlvmCodeGenerator::new: empty llvm_funs,
empty codegened_funs). -/
def FwdState.init : FwdState := ⟨[], [], 0⟩

/-- A module subtree: the FunIds of its FunDef entries in definition order, and
its ModDef children in order. -/
inductive ModTree where
  | node (funs : List FunId) (subs : List ModTree)

/-- The body of the first loop of forward_funs (mod.rs lines 231-254) for one
FunId: skip it if already in codegened_funs; otherwise record it, build the
prototype (source name and external linkage when EXTERN, mangled
`name-{uuid}` and internal linkage otherwise) and insert it into llvm_funs. -/
def fwdStep (spark : FunId → FunDecl) (st : FwdState) (funId : FunId) :
    FwdState :=
  if funId ∈ st.codegenedFuns then st
  else
    let f := spark funId
    let proto : Proto :=
      if f.isExtern then
        ⟨funId, f.name, .external⟩
      else
        ⟨funId, f.name ++ "-" ++ toString st.freshUuid, .internal⟩
    { codegenedFuns := funId :: st.codegenedFuns,
      protos := st.protos ++ [proto],
      freshUuid := st.freshUuid + 1 }

mutual

/-- forward_funs (mod.rs lines 228-263): process the FunDefs of this module,
then recurse into the child modules. -/
def forwardFuns (spark : FunId → FunDecl) : ModTree → FwdState → FwdState
  | .node funs subs, st => forwardFunsList spark subs (funs.foldl (fwdStep spark) st)

/-- The child-module loop of forward_funs (mod.rs lines 256-260). -/
def forwardFunsList (spark : FunId → FunDecl) : List ModTree → FwdState → FwdState
  | [], st => st
  | t :: ts, st => forwardFunsList spark ts (forwardFuns spark t st)

end

mutual

/-- All FunIds of a module tree in the order forward_funs visits them. -/
def ModTree.funIds : ModTree → List FunId
  | .node funs subs => funs ++ ModTree.funIdsList subs

/-- All FunIds of a forest of module trees in visit order. -/
def ModTree.funIdsList : List ModTree → List FunId
  | [] => []
  | t :: ts => t.funIds ++ ModTree.funIdsList ts

end

/-- Look up the prototype forward-declared for a FunId
(`self.llvm_funs.get(fun)` / `self.llvm_funs[&fun]`). -/
def protoFor (st : FwdState) (funId : FunId) : Option Proto :=
  st.protos.find? (fun p => p.funId == funId)

/-- Pass 2 resolution (codegen_module, mod.rs lines 217-225, running
forward_funs before codegen_defs): after the forward pass, every function body
is emitted and each call inside it fetches the callee prototype from llvm_funs
(gen_access, astgen.rs lines 971-974).  The model records whether every callee
of every function in the tree resolves.  callsOf gives the FunIds called from
each function body. -/
def codegenModuleResolves (spark : FunId → FunDecl) (callsOf : FunId → List FunId)
    (t : ModTree) : Bool :=
  let st := forwardFuns spark t FwdState.init
  t.funIds.all (fun f => (callsOf f).all (fun c => (protoFor st c).isSome))

/-! ## A small model of the LLVM builder

The lowerer emits instructions through the inkwell builder.  The statements
the claims need are allocas, stores, loads, calls and returns; pointers are
numbered stack slots.  A memory maps each slot to its current contents, `none`
for a slot that was allocated but never stored to (LLVM: loading it gives an
unspecified value). -/

/-- A first-class value produced by expression lowering. -/
inductive Val where
  | boolVal (b : Bool)
  | intVal (n : Nat)
deriving DecidableEq, Repr

/-- The emitted instructions the claims observe. -/
inductive Instr where
  | alloca (ptr : Nat)
  | store (ptr : Nat) (v : Val)
  | load (ptr : Nat)
  | callFn (callee : FunId)
  | ret (v : Option Val)
  | retVoid
deriving DecidableEq, Repr

/-- Builder state: the instructions emitted so far into the current position,
and a counter supplying fresh stack slots for build_alloca. -/
structure Builder where
  instrs : List Instr
  freshPtr : Nat
deriving DecidableEq, Repr

/-- build_alloca: emit an alloca of a fresh slot and return its pointer. -/
def buildAlloca (b : Builder) : Builder × Nat :=
  ({ instrs := b.instrs ++ [.alloca b.freshPtr], freshPtr := b.freshPtr + 1 },
   b.freshPtr)

/-- Execute one instruction against a memory.  An alloca yields a fresh
uninitialized slot; a store fills a slot; loads, calls and returns do not
change memory. -/
def execInstr (mem : Nat → Option Val) : Instr → (Nat → Option Val)
  | .alloca p => fun q => if q = p then none else mem q
  | .store p v => fun q => if q = p then some v else mem q
  | _ => mem

/-- Execute a list of instructions in order. -/
def execInstrs (mem : Nat → Option Val) (l : List Instr) : Nat → Option Val :=
  l.foldl execInstr mem

/-! ## gen_lval fallback for rvalue-only expressions (astgen.rs lines 928-932)

The fallback arm of gen_lval handles every expression that is not an Access,
Block, Match, IfExpr or MemberAccess (literals, calls, binary and unary
expressions, casts).  The source is

    let expr = self.gen_expr(module, ast)?;
    let alloca = self.builder.build_alloca(expr.get_type(), "lvalue_alloca");
    alloca

that is: lower the expression as an rvalue, allocate a fresh temporary, and
return the temporary pointer.  No store of the rvalue into the temporary is
built. -/

/-- The gen_lval fallback arm.  genExprOf stands for the recursive
`gen_expr(module, ast)` call: it extends the builder with the instructions of
the expression and produces its value. -/
def genLvalFallback (genExprOf : Builder → Builder × Val) (b : Builder) :
    Builder × Nat :=
  let (b1, _expr) := genExprOf b
  buildAlloca b1

/-- gen_expr on Literal::Bool(true) (gen_literal, astgen.rs lines 381-385):
only a constant is produced, no instruction is emitted. -/
def genExprBoolTrue (b : Builder) : Builder × Val := (b, .boolVal true)

/-! ## Return statement lowering (gen_stmt, astgen.rs lines 106-134) -/

/-- Result of lowering one statement: a diagnostic or the new builder state. -/
inductive StmtResult where
  | err
  | ok (b : Builder) (placedTerminator : Bool)
deriving DecidableEq, Repr

/-- The AstNode::Return arm of gen_stmt.  returnedTy is ast_type of the
returned expression, fnReturnTy the current function declared return type.
When the types differ a diagnostic is produced.  Otherwise placed_terminator is
set and: for a non-unit return type gen_expr emits the code of the expression
(exprCode, producing exprVal) followed by build_return(Some); for the unit
return type only build_return(None) is emitted and gen_expr is never called. -/
def genReturnStmt (returnedTy fnReturnTy : TypeId) (exprCode : List Instr)
    (exprVal : Val) (b : Builder) : StmtResult :=
  if returnedTy ≠ fnReturnTy then .err
  else if fnReturnTy ≠ SparkCtx.UNIT then
    .ok { b with instrs := b.instrs ++ exprCode ++ [.ret (some exprVal)] } true
  else
    .ok { b with instrs := b.instrs ++ [.retVoid] } true

/-! ## Block lowering frame behaviour (astgen.rs lines 936-961 and 1422-1458)

The generator threads phi_data, break_bb and continue_bb through recursive
emission.  GenState models exactly those fields plus the fresh basic-block and
fresh-slot counters (append_basic_block and build_alloca).  The statement loop
of gen_body_no_phi is abstracted as a state transformer `inner` (the identity
for an empty block body); gen_block_ast and gen_body themselves are embedded
statement by statement. -/

/-- PhiData (mod.rs lines 64-70). -/
structure PhiData where
  breakBb : Nat
  alloca : Nat
  phiTy : TypeId
deriving DecidableEq, Repr

/-- The ambient generator fields the frame claim is about, with counters for
fresh basic blocks and fresh stack slots. -/
structure GenState where
  phiData : Option PhiData
  breakBb : Option Nat
  continueBb : Option Nat
  nextBb : Nat
  nextPtr : Nat
deriving DecidableEq, Repr

/-- gen_body (astgen.rs lines 1422-1458): when the block body contains a phi
statement (phiNodeTy is its type), build a phi alloca and form the PhiData with
after_bb as its break target; save the ambient phi_data, install the new one,
run the statement loop, restore the saved phi_data, and return the PhiData of
this block. -/
def genBody (inner : GenState → GenState) (phiNodeTy : Option TypeId)
    (afterBb : Nat) (st : GenState) : GenState × Option PhiData :=
  let stPhi : GenState × Option PhiData :=
    match phiNodeTy with
    | some ty =>
      ({ st with nextPtr := st.nextPtr + 1 },
       some ⟨afterBb, st.nextPtr, ty⟩)
    | none => (st, none)
  let st := stPhi.1
  let phiData := stPhi.2
  let oldPhiData := st.phiData
  let st := { st with phiData := phiData }
  let st := inner st
  ({ st with phiData := oldPhiData }, phiData)

/-- gen_block_ast (astgen.rs lines 936-961), statement by statement:
save old_continue; append the body block and point continue_bb at it; append
the after block and point break_bb at it; run gen_body; restore continue_bb
from old_continue.  break_bb is never saved or restored. -/
def genBlockAst (inner : GenState → GenState) (phiNodeTy : Option TypeId)
    (st : GenState) : GenState × Option Nat :=
  let oldContinue := st.continueBb
  let bodyBb := st.nextBb
  let st := { st with nextBb := st.nextBb + 1, continueBb := some bodyBb }
  let afterBb := st.nextBb
  let st := { st with nextBb := st.nextBb + 1, breakBb := some afterBb }
  let (st, pv) := genBody inner phiNodeTy afterBb st
  let st := { st with continueBb := oldContinue }
  (st, pv.map (fun d => d.alloca))

/-! ## Match arm phi check (gen_match_expr, astgen.rs lines 272-289) -/

/-- The arm expression shapes gen_match_expr distinguishes: the scan only asks
whether the arm node is AstNode::PhiExpr. -/
inductive ArmNode where
  | phiExpr
  | blockNode
  | literal
  | funCall
  | otherNode
deriving DecidableEq, Repr

/-- Whether an arm node is a PhiExpr (`if let AstNode::PhiExpr(_) = expr.node`). -/
def ArmNode.isPhi : ArmNode → Bool
  | .phiExpr => true
  | _ => false

/-- The scan over the arms (astgen.rs lines 272-280): has_phi starts false and
is set by a phi arm; all_arms_have_phi starts true and is cleared by a non-phi
arm. -/
def armPhiFlags (arms : List ArmNode) : Bool × Bool :=
  arms.foldl
    (fun acc e => if e.isPhi then (true, acc.2) else (acc.1, false))
    (false, true)

/-- The mixing check (astgen.rs lines 282-289): a diagnostic is produced
exactly when has_phi holds and all_arms_have_phi does not. -/
def matchPhiMixError (arms : List ArmNode) : Bool :=
  let flags := armPhiFlags arms
  flags.1 && !flags.2

/-! ## Integer-to-integer casts (gen_cast, astgen.rs lines 1113-1146) -/

/-- The cast instruction gen_cast builds for an Integer to Integer cast. -/
inductive IntCastOp where
  | ident
  | zext
  | sext
  | trunc
deriving DecidableEq, Repr

/-- The Integer/Integer arm of gen_cast: same width passes the value through;
a widening cast zero-extends when the destination is unsigned and sign-extends
when it is signed; anything else (a narrowing cast) truncates.  The order on
IntegerWidth is the derived order of the Rust enum, i.e. the order of the
bit-width discriminants. -/
def genIntCastOp (fromWidth : IntegerWidth) (toSigned : Bool)
    (toWidth : IntegerWidth) : IntCastOp :=
  if fromWidth = toWidth then .ident
  else if fromWidth.toNat < toWidth.toNat ∧ toSigned = false then .zext
  else if fromWidth.toNat < toWidth.toNat ∧ toSigned = true then .sext
  else .trunc

/-- LLVM semantics of the built cast instruction on an integer value.  The
value is the fromBits-wide bit pattern read as a natural number below
2 ^ fromBits.  zext keeps the value; sext adds the new high bits when the sign
bit is set; trunc keeps the low toBits bits. -/
def applyIntCastOp (op : IntCastOp) (fromBits toBits : Nat) (v : Nat) : Nat :=
  match op with
  | .ident => v
  | .zext => v
  | .sext => if v < 2 ^ (fromBits - 1) then v else v + (2 ^ toBits - 2 ^ fromBits)
  | .trunc => v % 2 ^ toBits

/-- The signed (two's complement) reading of a bits-wide pattern. -/
def signedRead (bits : Nat) (v : Nat) : Int :=
  if v < 2 ^ (bits - 1) then (v : Int) else (v : Int) - 2 ^ bits

/-! ## Derived predicates and concrete example inputs -/

/-- The naming and linkage discipline of one forward-declared prototype
(forward_funs, mod.rs lines 244-252): EXTERN functions keep their source name
with external linkage, all others get a dash-and-uuid suffix after the source
name with internal linkage. -/
def protoShape (spark : FunId → FunDecl) (p : Proto) : Prop :=
  if (spark p.funId).isExtern then
    p.name = (spark p.funId).name ∧ p.linkage = .external
  else
    p.linkage = .internal ∧
      ∃ k : Nat, p.name = (spark p.funId).name ++ "-" ++ toString k

/-- Invariant threaded through the forward pass: codegened_funs holds exactly
the FunIds with a prototype, no FunId owns two prototypes, and every prototype
follows the naming and linkage discipline. -/
def FwdInv (spark : FunId → FunDecl) (st : FwdState) : Prop :=
  (∀ id, id ∈ st.codegenedFuns ↔ ∃ p ∈ st.protos, p.funId = id) ∧
  (∀ id, st.protos.countP (fun p => p.funId == id) ≤ 1) ∧
  (∀ p ∈ st.protos, protoShape spark p)

/-- A type table holding the 12 primitives followed by an enum whose single
variant is Unit (TypeId 12): an enum all of whose variants are zero-sized. -/
def allUnitEnumTable : List TypeData :=
  SparkCtx.newTypes.entries ++ [.enum none [SparkCtx.UNIT]]

/-- A function arena for the forward-pass witnesses: function 0 is extern
`puts`, function 1 is an internal `helper`. -/
def exampleFuns : FunId → FunDecl
  | 0 => ⟨"puts", true⟩
  | _ => ⟨"helper", false⟩

/-- A module tree in which FunId 0 is reachable twice: once from the root and
once from a submodule. -/
def treeTwice : ModTree := .node [0] [.node [0] []]

/-- A root module holding functions 0 and 1 in source order (function 0 can
call function 1, declared later). -/
def treeAB : ModTree := .node [0, 1] []

/-- Call graph in which function 0 calls the later-declared function 1. -/
def callsAB : FunId → List FunId
  | 0 => [1]
  | _ => []

/-! ## Interner lemmas -/

theorem findExisting_get {α : Type} [DecidableEq α] {d : α} :
    ∀ {l : List α} {i : Nat}, findExisting d l = some i → l.get? i = some d := by
  intro l
  induction l with
  | nil => intro i h; simp [findExisting] at h
  | cons a l ih =>
    intro i h
    rw [findExisting] at h
    by_cases ha : a = d
    · simp [ha] at h
      subst ha h
      rfl
    · simp [ha] at h
      obtain ⟨j, hj, hij⟩ := h
      subst hij
      simpa using ih hj

theorem findExisting_append_self {α : Type} [DecidableEq α] {d : α} :
    ∀ {l : List α}, findExisting d l = none →
      findExisting d (l ++ [d]) = some l.length := by
  intro l
  induction l with
  | nil => intro _; simp [findExisting]
  | cons a l ih =>
    intro h
    rw [findExisting] at h
    by_cases ha : a = d
    · simp [ha] at h
    · simp [ha] at h
      simp [findExisting, ha, ih h, List.length_cons]

/-- The interner stores the inserted payload at the returned id. -/
theorem Interner.insert_get {α : Type} [DecidableEq α] (i : Interner α) (d : α) :
    ((i.insert d).1).entries.get? ((i.insert d).2) = some d := by
  unfold Interner.insert
  cases h : findExisting d i.entries with
  | some idx => simp only []; exact findExisting_get h
  | none => simp only []; exact List.get?_concat_length i.entries d

/-- The backing list only ever grows by the inserted payload. -/
theorem Interner.insert_entries {α : Type} [DecidableEq α] (i : Interner α) (d : α) :
    ((i.insert d).1).entries = i.entries ∨
      ((i.insert d).1).entries = i.entries ++ [d] := by
  unfold Interner.insert
  cases h : findExisting d i.entries with
  | some idx => exact Or.inl rfl
  | none => exact Or.inr rfl

/-- Inserting the same payload twice in a row returns the same id. -/
theorem Interner.insert_insert {α : Type} [DecidableEq α] (i : Interner α) (d : α) :
    (((i.insert d).1).insert d).2 = (i.insert d).2 := by
  unfold Interner.insert
  cases h : findExisting d i.entries with
  | some idx => simp [h]
  | none => simp [findExisting_append_self h]

/-- Sequentially interning two distinct payloads never returns one id. -/
theorem Interner.insert_ne_of_ne {α : Type} [DecidableEq α] (i : Interner α)
    {d1 d2 : α} (hne : d1 ≠ d2) :
    (((i.insert d1).1).insert d2).2 ≠ (i.insert d1).2 := by
  intro hEq
  have g1 : ((i.insert d1).1).entries.get? ((i.insert d1).2) = some d1 :=
    Interner.insert_get i d1
  have g2 : ((((i.insert d1).1).insert d2).1).entries.get?
      ((((i.insert d1).1).insert d2).2) = some d2 :=
    Interner.insert_get ((i.insert d1).1) d2
  have hlt : (i.insert d1).2 < ((i.insert d1).1).entries.length :=
    List.get?_eq_some.mp g1 |>.choose
  have g1ext : ((((i.insert d1).1).insert d2).1).entries.get?
      ((i.insert d1).2) = some d1 := by
    rcases Interner.insert_entries ((i.insert d1).1) d2 with h | h
    · rw [h]; exact g1
    · rw [h, List.get?_append hlt]; exact g1
  rw [hEq, g1ext] at g2
  exact hne (Option.some.inj g2)

/-! ## Claim theorems: type interning and primitive anchoring -/

/-- C5: interning is deduplicating and name-sensitive.  Calling new_type twice
in sequence with one and the same TypeData returns the same TypeId, and two
named struct types with distinct name tags receive distinct TypeIds even with
identical field lists. -/
theorem new_type_interning (types types0 : Interner TypeData) (d : TypeData)
    (n1 n2 : Option String) (flds : List (TypeId × String)) (hn : n1 ≠ n2) :
    (newType (newType types d).1 d).2 = (newType types d).2 ∧
    (newType (newType types0 (.struct n1 flds)).1 (.struct n2 flds)).2 ≠
      (newType types0 (.struct n1 flds)).2 := by
  constructor
  · exact Interner.insert_insert types d
  · exact Interner.insert_ne_of_ne types0 (by simpa using hn)

/-- C5 witness: instantiation at concrete inputs (the empty interner, the Unit
type data, and two named structs with the same single i8 field). -/
theorem new_type_interning_witness :
    (some "A" : Option String) ≠ some "B" ∧
    ((newType (newType (Interner.new TypeData) .unit).1 .unit).2 =
        (newType (Interner.new TypeData) .unit).2 ∧
      (newType (newType (Interner.new TypeData)
            (.struct (some "A") [(SparkCtx.I8, "x")])).1
          (.struct (some "B") [(SparkCtx.I8, "x")])).2 ≠
        (newType (Interner.new TypeData) (.struct (some "A") [(SparkCtx.I8, "x")])).2) :=
  ⟨by decide,
   new_type_interning (Interner.new TypeData) (Interner.new TypeData) .unit
     (some "A") (some "B") [(SparkCtx.I8, "x")] (by decide)⟩

/-- C4 counterexample: in IrContext::new (ir/mod.rs lines 178-201) the type
interned at index 8 is Bool, not F32 as the claimed fixed order
I8,...,U64,F32,F64,Bool,Unit would put there; IrContext interns Bool and Unit
before the two float types. -/
theorem ir_context_order_cex :
    IrContext.newTypes.entries.get? 8 = some IrType.bool ∧
    some IrType.bool ≠ some (IrType.float false) := by
  constructor
  · rfl
  · decide

/-- C4 amended: after construction each context holds exactly its 12 primitive
types at indices 0 through 11, in its own insertion order, consistent with its
own named TypeId constants: SparkCtx::new interns
I8,I16,I32,I64,U8,U16,U32,U64,F32,F64,Bool,Unit (F32 = 8, F64 = 9, BOOL = 10,
UNIT = 11), while IrContext::new interns
I8,I16,I32,I64,U8,U16,U32,U64,Bool,Unit,F32,F64 (BOOL = 8, UNIT = 9, F32 = 10,
F64 = 11). -/
theorem primitive_anchoring :
    SparkCtx.newTypes.entries = SparkCtx.newInsertions ∧
    IrContext.newTypes.entries = IrContext.newInsertions ∧
    SparkCtx.newTypes.entries.get? SparkCtx.I8 = some (.integer true .eight) ∧
    SparkCtx.newTypes.entries.get? SparkCtx.I16 = some (.integer true .sixteen) ∧
    SparkCtx.newTypes.entries.get? SparkCtx.I32 = some (.integer true .thirtyTwo) ∧
    SparkCtx.newTypes.entries.get? SparkCtx.I64 = some (.integer true .sixtyFour) ∧
    SparkCtx.newTypes.entries.get? SparkCtx.U8 = some (.integer false .eight) ∧
    SparkCtx.newTypes.entries.get? SparkCtx.U16 = some (.integer false .sixteen) ∧
    SparkCtx.newTypes.entries.get? SparkCtx.U32 = some (.integer false .thirtyTwo) ∧
    SparkCtx.newTypes.entries.get? SparkCtx.U64 = some (.integer false .sixtyFour) ∧
    SparkCtx.newTypes.entries.get? SparkCtx.F32 = some (.float false) ∧
    SparkCtx.newTypes.entries.get? SparkCtx.F64 = some (.float true) ∧
    SparkCtx.newTypes.entries.get? SparkCtx.BOOL = some .bool ∧
    SparkCtx.newTypes.entries.get? SparkCtx.UNIT = some .unit ∧
    IrContext.newTypes.entries.get? IrContext.I8 = some (.integer true .eight) ∧
    IrContext.newTypes.entries.get? IrContext.I16 = some (.integer true .sixteen) ∧
    IrContext.newTypes.entries.get? IrContext.I32 = some (.integer true .thirtyTwo) ∧
    IrContext.newTypes.entries.get? IrContext.I64 = some (.integer true .sixtyFour) ∧
    IrContext.newTypes.entries.get? IrContext.U8 = some (.integer false .eight) ∧
    IrContext.newTypes.entries.get? IrContext.U16 = some (.integer false .sixteen) ∧
    IrContext.newTypes.entries.get? IrContext.U32 = some (.integer false .thirtyTwo) ∧
    IrContext.newTypes.entries.get? IrContext.U64 = some (.integer false .sixtyFour) ∧
    IrContext.newTypes.entries.get? IrContext.BOOL = some .bool ∧
    IrContext.newTypes.entries.get? IrContext.UNIT = some .unit ∧
    IrContext.newTypes.entries.get? IrContext.F32 = some (.float false) ∧
    IrContext.newTypes.entries.get? IrContext.F64 = some (.float true) := by
  decide

/-! ## Claim theorems: enum byte size -/

/-- C1 (code evaluated at the failing input): for the enum interned at TypeId
12 of allUnitEnumTable, whose single variant is the zero-sized Unit,
size_of_type returns biggest_size(parts) = 0 — not the claimed
1 + max(variant sizes) = 1 — even though the representation llvm_ty emits for
the same enum is the packed one-byte struct of the bare i8 discriminant. -/
theorem enum_size_missing_discriminant :
    sizeOfType 8 allUnitEnumTable 13 12 = 0 ∧
    sizeOfType 8 allUnitEnumTable 13 12 ≠
      1 + biggestSize 8 allUnitEnumTable 12 [SparkCtx.UNIT] ∧
    enumLoweredByteSize 8 allUnitEnumTable 12 [SparkCtx.UNIT] = 1 := by
  decide

/-! ## Claim theorems: lvalue fallback, frame effects, return, match arms -/

/-- C2 (code evaluated at the failing input): lowering the rvalue-only
expression `true` in lvalue position emits only the alloca of the fresh
temporary slot 0 and returns that slot; no store of the value into the slot is
ever built, so after executing the emitted instructions the slot still holds
nothing — not the value true the claim promises a load would yield. -/
theorem lval_fallback_uninitialized :
    (genLvalFallback genExprBoolTrue ⟨[], 0⟩).1.instrs = [.alloca 0] ∧
    (genLvalFallback genExprBoolTrue ⟨[], 0⟩).2 = 0 ∧
    execInstrs (fun _ => none) (genLvalFallback genExprBoolTrue ⟨[], 0⟩).1.instrs
      (genLvalFallback genExprBoolTrue ⟨[], 0⟩).2 = none ∧
    (none : Option Val) ≠ some (Val.boolVal true) := by
  exact ⟨rfl, rfl, rfl, by decide⟩

/-- C3 (code evaluated at the failing input): emitting an inner block (empty
body) from a state whose ambient break_bb is block 0, continue_bb block 1 and
phi_data empty restores phi_data and continue_bb but leaves break_bb pointing
at the inner block's own after block (block 3): break_bb is clobbered, not
saved and restored. -/
theorem block_break_bb_not_restored :
    (genBlockAst id none ⟨none, some 0, some 1, 2, 0⟩).1.breakBb = some 3 ∧
    (genBlockAst id none ⟨none, some 0, some 1, 2, 0⟩).1.breakBb ≠ some 0 ∧
    (genBlockAst id none ⟨none, some 0, some 1, 2, 0⟩).1.continueBb = some 1 ∧
    (genBlockAst id none ⟨none, some 0, some 1, 2, 0⟩).1.phiData = none := by
  decide

/-- Closed form of the arm scan of gen_match_expr: from any starting flags it
computes has_phi as the disjunction with "some arm is a phi" and
all_arms_have_phi as the conjunction with "every arm is a phi". -/
theorem armPhiFlags_foldl (arms : List ArmNode) :
    ∀ hp ap : Bool,
      arms.foldl (fun acc e => if e.isPhi then (true, acc.2) else (acc.1, false))
          (hp, ap) =
        (hp || arms.any ArmNode.isPhi, ap && arms.all ArmNode.isPhi) := by
  induction arms with
  | nil => intro hp ap; simp
  | cons a l ih =>
    intro hp ap
    rw [List.foldl_cons]
    by_cases ha : a.isPhi
    · simp [ha, ih, Bool.or_assoc]
    · simp [ha, ih]

/-- C9: gen_match_expr reports the mixing diagnostic exactly when the arm list
holds at least one phi arm and at least one non-phi arm; an all-phi or
all-non-phi arm list passes this check. -/
theorem match_phi_mixing (arms : List ArmNode) :
    matchPhiMixError arms = true ↔
      ((∃ a ∈ arms, a.isPhi = true) ∧ (∃ a ∈ arms, a.isPhi = false)) := by
  unfold matchPhiMixError armPhiFlags
  rw [armPhiFlags_foldl]
  simp [List.any_eq_true, List.all_eq_true, Bool.not_eq_true]

/-- C9 witness: the theorem instantiated at a two-arm list mixing a phi arm
with a literal arm. -/
theorem match_phi_mixing_witness :
    matchPhiMixError [ArmNode.phiExpr, ArmNode.literal] = true ↔
      ((∃ a ∈ [ArmNode.phiExpr, ArmNode.literal], a.isPhi = true) ∧
       (∃ a ∈ [ArmNode.phiExpr, ArmNode.literal], a.isPhi = false)) :=
  match_phi_mixing [ArmNode.phiExpr, ArmNode.literal]

/-- C10: a `return e` in a function declared to return Unit emits only the
void return — the instruction stream of e (its calls included) is dropped —
while for any non-unit return type the instructions of e are emitted followed
by the valued return. -/
theorem return_unit_drops_expr (exprCode : List Instr) (v : Val) (b : Builder) :
    genReturnStmt SparkCtx.UNIT SparkCtx.UNIT exprCode v b =
      .ok { b with instrs := b.instrs ++ [.retVoid] } true ∧
    ∀ rty : TypeId, rty ≠ SparkCtx.UNIT →
      genReturnStmt rty rty exprCode v b =
        .ok { b with instrs := b.instrs ++ exprCode ++ [.ret (some v)] } true := by
  constructor
  · simp [genReturnStmt]
  · intro rty h
    simp [genReturnStmt, h]

/-- C10 witness: the theorem instantiated for an i32-returning function whose
returned expression lowers to a call instruction. -/
theorem return_unit_drops_expr_witness :
    genReturnStmt SparkCtx.I32 SparkCtx.I32 [Instr.callFn 0] (Val.intVal 7) ⟨[], 0⟩ =
      .ok ⟨[Instr.callFn 0, Instr.ret (some (Val.intVal 7))], 0⟩ true :=
  (return_unit_drops_expr [Instr.callFn 0] (Val.intVal 7) ⟨[], 0⟩).2
    SparkCtx.I32 (by decide)

/-! ## Claim theorems: the integer cast engine -/

theorem IntegerWidth.one_le_toNat (w : IntegerWidth) : 1 ≤ w.toNat := by
  cases w <;> decide

/-- Arithmetic of the sign-extending cast: the low bits are kept and the
signed two's complement reading of the pattern is unchanged. -/
theorem sext_semantics (f t v : Nat) (hf : 1 ≤ f) (hft : f < t) (hv : v < 2 ^ f) :
    applyIntCastOp .sext f t v % 2 ^ f = v ∧
    signedRead t (applyIntCastOp .sext f t v) = signedRead f v := by
  have hfle : (2:ℕ) ^ f ≤ 2 ^ t := Nat.pow_le_pow_right (by norm_num) (le_of_lt hft)
  have hple : (2:ℕ) ^ (f-1) ≤ 2 ^ (t-1) :=
    Nat.pow_le_pow_right (by norm_num) (by omega)
  unfold applyIntCastOp signedRead
  by_cases hsign : v < 2 ^ (f - 1)
  · have hvt : v < 2 ^ (t - 1) := lt_of_lt_of_le hsign hple
    simp [hsign, hvt, Nat.mod_eq_of_lt hv]
  · have hdvd : (2:ℕ) ^ f ∣ (2 ^ t - 2 ^ f) :=
      Nat.dvd_sub' (Nat.pow_dvd_pow 2 (le_of_lt hft)) dvd_rfl
    obtain ⟨k, hk⟩ := hdvd
    have h2t : (2:ℕ) ^ t = 2 * 2 ^ (t - 1) := by
      have ht1 : t - 1 + 1 = t := by omega
      calc (2:ℕ) ^ t = 2 ^ (t - 1 + 1) := by rw [ht1]
        _ = 2 ^ (t-1) * 2 := pow_succ 2 (t-1)
        _ = 2 * 2 ^ (t-1) := by ring
    have h2f : (2:ℕ) ^ f ≤ 2 ^ (t - 1) := Nat.pow_le_pow_right (by norm_num) (by omega)
    have hge : ¬ (v + (2 ^ t - 2 ^ f) < 2 ^ (t - 1)) := by omega
    simp only [hsign, if_neg, hge, if_false]
    constructor
    · rw [hk, Nat.add_mul_mod_self_left, Nat.mod_eq_of_lt hv]
    · have hcast : ((v + (2 ^ t - 2 ^ f) : ℕ) : ℤ) = (v : ℤ) + 2 ^ t - 2 ^ f := by
        push_cast [Nat.cast_sub hfle]
        ring
      rw [hcast]
      ring

/-- C8: for an Integer to Integer cast, equal widths pass the value through
unchanged; a widening cast to an unsigned destination zero-extends (the value
is unchanged); a widening cast to a signed destination sign-extends (the low
bits and the signed reading are preserved); and a narrowing cast truncates to
the destination width. -/
theorem int_cast_semantics (fw : IntegerWidth) (ts : Bool) (tw : IntegerWidth)
    (v : Nat) (hv : v < 2 ^ fw.toNat) :
    (fw = tw →
      applyIntCastOp (genIntCastOp fw ts tw) fw.toNat tw.toNat v = v) ∧
    (fw.toNat < tw.toNat → ts = false →
      applyIntCastOp (genIntCastOp fw ts tw) fw.toNat tw.toNat v = v) ∧
    (fw.toNat < tw.toNat → ts = true →
      applyIntCastOp (genIntCastOp fw ts tw) fw.toNat tw.toNat v % 2 ^ fw.toNat = v ∧
      signedRead tw.toNat
          (applyIntCastOp (genIntCastOp fw ts tw) fw.toNat tw.toNat v) =
        signedRead fw.toNat v) ∧
    (tw.toNat < fw.toNat →
      applyIntCastOp (genIntCastOp fw ts tw) fw.toNat tw.toNat v = v % 2 ^ tw.toNat) := by
  refine ⟨?_, ?_, ?_, ?_⟩
  · intro h
    subst h
    simp [genIntCastOp, applyIntCastOp]
  · intro hlt hts
    subst hts
    have hne : fw ≠ tw := by
      intro h; subst h; exact lt_irrefl _ hlt
    simp [genIntCastOp, hne, hlt, applyIntCastOp]
  · intro hlt hts
    subst hts
    have hne : fw ≠ tw := by
      intro h; subst h; exact lt_irrefl _ hlt
    have hop : genIntCastOp fw true tw = .sext := by
      simp [genIntCastOp, hne, hlt]
    rw [hop]
    exact sext_semantics fw.toNat tw.toNat v (IntegerWidth.one_le_toNat fw) hlt hv
  · intro hlt
    have hne : fw ≠ tw := by
      intro h; subst h; exact lt_irrefl _ hlt
    have hnlt : ¬ fw.toNat < tw.toNat := Nat.not_lt.mpr (le_of_lt hlt)
    simp [genIntCastOp, hne, hnlt, applyIntCastOp]

/-- C8 witness: the theorem instantiated at the widening signed cast of the
i8 pattern 200 (a negative signed value) to 16 bits. -/
theorem int_cast_semantics_witness :
    (200 : Nat) < 2 ^ IntegerWidth.eight.toNat ∧
    (applyIntCastOp (genIntCastOp .eight true .sixteen) IntegerWidth.eight.toNat
        IntegerWidth.sixteen.toNat 200 % 2 ^ IntegerWidth.eight.toNat = 200 ∧
      signedRead IntegerWidth.sixteen.toNat
          (applyIntCastOp (genIntCastOp .eight true .sixteen)
            IntegerWidth.eight.toNat IntegerWidth.sixteen.toNat 200) =
        signedRead IntegerWidth.eight.toNat 200) :=
  ⟨by decide,
   (int_cast_semantics .eight true .sixteen 200 (by decide)).2.2.1 (by decide) rfl⟩

/-! ## Forward pass lemmas -/

mutual

/-- Walking the module tree equals folding the step over the visit order. -/
theorem forwardFuns_eq_foldl (spark : FunId → FunDecl) :
    ∀ (t : ModTree) (st : FwdState),
      forwardFuns spark t st = (ModTree.funIds t).foldl (fwdStep spark) st
  | .node funs subs, st => by
    rw [forwardFuns, ModTree.funIds, List.foldl_append,
      forwardFunsList_eq_foldl spark subs]

/-- Walking a forest equals folding the step over the forest visit order. -/
theorem forwardFunsList_eq_foldl (spark : FunId → FunDecl) :
    ∀ (ts : List ModTree) (st : FwdState),
      forwardFunsList spark ts st = (ModTree.funIdsList ts).foldl (fwdStep spark) st
  | [], _ => rfl
  | t :: ts, st => by
    rw [forwardFunsList, ModTree.funIdsList, List.foldl_append,
      forwardFuns_eq_foldl spark t, forwardFunsList_eq_foldl spark ts]

end

theorem fwdStep_mem_self (spark : FunId → FunDecl) (st : FwdState) (id : FunId) :
    id ∈ (fwdStep spark st id).codegenedFuns := by
  unfold fwdStep
  by_cases h : id ∈ st.codegenedFuns
  · simp [h]
  · simp [h]

theorem fwdStep_mem_mono (spark : FunId → FunDecl) (st : FwdState)
    (id j : FunId) (hj : j ∈ st.codegenedFuns) :
    j ∈ (fwdStep spark st id).codegenedFuns := by
  unfold fwdStep
  by_cases h : id ∈ st.codegenedFuns
  · simpa [h] using hj
  · simp [h]
    exact Or.inr hj

theorem foldl_fwdStep_mem (spark : FunId → FunDecl) :
    ∀ (l : List FunId) (st : FwdState) (id : FunId),
      (id ∈ l ∨ id ∈ st.codegenedFuns) →
      id ∈ (l.foldl (fwdStep spark) st).codegenedFuns
  | [], st, id, h => by
    rcases h with h | h
    · simp at h
    · simpa using h
  | a :: l, st, id, h => by
    rw [List.foldl_cons]
    rcases h with h | h
    · rcases List.mem_cons.mp h with h | h
      · subst h
        exact foldl_fwdStep_mem spark l _ id (Or.inr (fwdStep_mem_self spark st id))
      · exact foldl_fwdStep_mem spark l _ id (Or.inl h)
    · exact foldl_fwdStep_mem spark l _ id
        (Or.inr (fwdStep_mem_mono spark st a id h))

theorem fwdStep_inv (spark : FunId → FunDecl) {st : FwdState}
    (hinv : FwdInv spark st) (id : FunId) :
    FwdInv spark (fwdStep spark st id) := by
  obtain ⟨hiff, hcount, hshape⟩ := hinv
  unfold fwdStep
  by_cases h : id ∈ st.codegenedFuns
  · simpa [h] using ⟨hiff, hcount, hshape⟩
  · simp only [h, if_false]
    set newProto : Proto :=
      if (spark id).isExtern then ⟨id, (spark id).name, .external⟩
      else ⟨id, (spark id).name ++ "-" ++ toString st.freshUuid, .internal⟩ with hnp
    have hpid : newProto.funId = id := by
      by_cases he : (spark id).isExtern <;> simp [hnp, he]
    have hnone : ∀ p ∈ st.protos, p.funId ≠ id := by
      intro p hp hpidq
      exact h ((hiff id).mpr ⟨p, hp, hpidq⟩)
    refine ⟨?_, ?_, ?_⟩
    · intro j
      simp only []
      constructor
      · intro hj
        rcases List.mem_cons.mp hj with hj | hj
        · exact ⟨newProto, List.mem_append_right _ (List.mem_singleton.mpr rfl),
            by rw [hpid, hj]⟩
        · obtain ⟨p, hp, hpj⟩ := (hiff j).mp hj
          exact ⟨p, List.mem_append_left _ hp, hpj⟩
      · rintro ⟨p, hp, hpj⟩
        rcases List.mem_append.mp hp with hp | hp
        · exact List.mem_cons_of_mem _ ((hiff j).mpr ⟨p, hp, hpj⟩)
        · have hpe : p = newProto := List.mem_singleton.mp hp
          subst hpe
          rw [hpid] at hpj
          subst hpj
          exact List.mem_cons_self _ _
    · intro j
      simp only []
      rw [List.countP_append]
      by_cases hj : j = id
      · subst hj
        have hz : st.protos.countP (fun p => p.funId == j) = 0 := by
          rw [List.countP_eq_zero]
          intro p hp
          simpa using hnone p hp
        simp [hz, hpid]
      · have hz : List.countP (fun p => p.funId == j) [newProto] = 0 := by
          rw [List.countP_eq_zero]
          intro p hp
          have hpe : p = newProto := List.mem_singleton.mp hp
          subst hpe
          simp [hpid]
          exact fun hEq => hj hEq.symm
        rw [hz]
        simpa using hcount j
    · intro p hp
      simp only [] at hp
      rcases List.mem_append.mp hp with hp | hp
      · exact hshape p hp
      · have hpe : p = newProto := List.mem_singleton.mp hp
        subst hpe
        unfold protoShape
        rw [hpid]
        by_cases he : (spark id).isExtern
        · simp [hnp, he]
        · simp [hnp, he]
          exact ⟨st.freshUuid, rfl⟩

theorem fwdInv_init (spark : FunId → FunDecl) : FwdInv spark FwdState.init := by
  refine ⟨?_, ?_, ?_⟩
  · intro id
    simp [FwdState.init]
  · intro id
    simp [FwdState.init]
  · intro p hp
    simp [FwdState.init] at hp

theorem foldl_fwdStep_inv (spark : FunId → FunDecl) :
    ∀ (l : List FunId) {st : FwdState}, FwdInv spark st →
      FwdInv spark (l.foldl (fwdStep spark) st)
  | [], _, h => h
  | a :: l, _, h => foldl_fwdStep_inv spark l (fwdStep_inv spark h a)

theorem fwd_count_one (spark : FunId → FunDecl) {st : FwdState}
    (hinv : FwdInv spark st) {id : FunId} (hmem : id ∈ st.codegenedFuns) :
    st.protos.countP (fun p => p.funId == id) = 1 := by
  obtain ⟨p, hp, hpid⟩ := (hinv.1 id).mp hmem
  have h1 : 0 < st.protos.countP (fun p => p.funId == id) :=
    List.countP_pos.mpr ⟨p, hp, by simp [hpid]⟩
  have h2 := hinv.2.1 id
  omega

theorem find?_funId_isSome {l : List Proto} {id : FunId}
    (h : ∃ p ∈ l, p.funId = id) :
    (l.find? (fun p => p.funId == id)).isSome = true := by
  obtain ⟨p, hp, hpid⟩ := h
  induction l with
  | nil => simp at hp
  | cons a l ih =>
    by_cases ha : a.funId = id
    · rw [List.find?_cons_of_pos _ (by simpa using ha)]
      rfl
    · rcases List.mem_cons.mp hp with hpe | hpl
      · subst hpe
        exact absurd hpid ha
      · rw [List.find?_cons_of_neg _ (by simpa using ha)]
        exact ih hpl

/-! ## Claim theorems: the forward declaration pass -/

/-- C6: after the forward pass every function in the module tree is declared
exactly once (a FunId reachable more than once is skipped on later visits
through codegened_funs), and its prototype uses the source name with external
linkage when the function is EXTERN and a dash-uuid-suffixed mangled name with
internal linkage otherwise. -/
theorem forward_funs_proto_discipline (spark : FunId → FunDecl) (t : ModTree)
    (id : FunId) (h : id ∈ t.funIds) :
    ((forwardFuns spark t FwdState.init).protos.countP
        (fun p => p.funId == id) = 1) ∧
    (∀ p ∈ (forwardFuns spark t FwdState.init).protos, p.funId = id →
      protoShape spark p) := by
  rw [forwardFuns_eq_foldl]
  have hinv := foldl_fwdStep_inv spark t.funIds (fwdInv_init spark)
  have hmem := foldl_fwdStep_mem spark t.funIds FwdState.init id (Or.inl h)
  exact ⟨fwd_count_one spark hinv hmem, fun p hp _ => hinv.2.2 p hp⟩

/-- C6 witness: the theorem instantiated on a tree in which the extern
function 0 is reachable from the root module and again from a submodule. -/
theorem forward_funs_proto_discipline_witness :
    (0 ∈ ModTree.funIds treeTwice) ∧
    (((forwardFuns exampleFuns treeTwice FwdState.init).protos.countP
        (fun p => p.funId == 0) = 1) ∧
      (∀ p ∈ (forwardFuns exampleFuns treeTwice FwdState.init).protos,
        p.funId = 0 → protoShape exampleFuns p)) :=
  ⟨by decide, forward_funs_proto_discipline exampleFuns treeTwice 0 (by decide)⟩

/-- C7: codegen_module runs the forward pass over the whole module tree before
any body is emitted, so when every call in every function body targets a
function somewhere in the tree — in particular a call to a function declared
later in the same module — the body-emission lookup of the callee prototype
always succeeds. -/
theorem codegen_module_two_pass (spark : FunId → FunDecl)
    (callsOf : FunId → List FunId) (t : ModTree)
    (h : ∀ f ∈ t.funIds, ∀ c ∈ callsOf f, c ∈ t.funIds) :
    codegenModuleResolves spark callsOf t = true := by
  simp only [codegenModuleResolves]
  rw [List.all_eq_true]
  intro f hf
  rw [List.all_eq_true]
  intro c hc
  have hcmem : c ∈ t.funIds := h f hf c hc
  have hinv : FwdInv spark (forwardFuns spark t FwdState.init) := by
    rw [forwardFuns_eq_foldl]
    exact foldl_fwdStep_inv spark t.funIds (fwdInv_init spark)
  have hmem : c ∈ (forwardFuns spark t FwdState.init).codegenedFuns := by
    rw [forwardFuns_eq_foldl]
    exact foldl_fwdStep_mem spark t.funIds FwdState.init c (Or.inl hcmem)
  obtain ⟨p, hp, hpid⟩ := (hinv.1 c).mp hmem
  simpa [protoFor] using find?_funId_isSome ⟨p, hp, hpid⟩

/-- C7 witness: the theorem instantiated on a module holding functions 0 and 1
in source order where function 0 calls the later-declared function 1. -/
theorem codegen_module_two_pass_witness :
    (∀ f ∈ ModTree.funIds treeAB, ∀ c ∈ callsAB f, c ∈ ModTree.funIds treeAB) ∧
    codegenModuleResolves exampleFuns callsAB treeAB = true :=
  ⟨by decide, codegen_module_two_pass exampleFuns callsAB treeAB (by decide)⟩

end Spark
